import Mathlib

/-!
Verification development for the `doc-summarizer` RAG pipeline
(`rag_builder/toolkits.py`, `rag_builder/pipeline.py`).

The core data model and operations are shallowly embedded:

* `TextElement`, `Document`, `Metadata`, `Payload`, `Point` mirror the data
  the pipeline passes around (a parsed document is a file path plus an
  ordered list of text elements; a stored point is an id, a vector and a
  payload `{"text": chunk, **metadata}`).
* `chunk_document` embeds `IndexingToolkit.chunk_document`
  (toolkits.py lines 121-145).  The title-aware segmentation
  `unstructured.chunking.title.chunk_by_title` is an external collaborator
  (spec section 4.1 delegates it), so it is a function parameter.
* `deduplicate_and_store` embeds `IndexingToolkit.deduplicate_and_store`
  (toolkits.py lines 160-187).  `hashlib.md5(...).hexdigest()` is an
  external deterministic digest, passed as the function parameter `md5`.
  The vector store's upsert-by-id semantics (same id overwrites, new id
  inserts; duplicate ids inside one batch resolve last-wins) are modelled
  by `upsertOne` / `upsert` per spec sections 4.2 and 6.
* `load_from_path`, `assembleBatch` and `ingest` embed
  `IngestionToolkit.load_from_path` (toolkits.py lines 46-104) and
  `RAGPipeline.ingest` (pipeline.py lines 60-111); the filesystem and the
  per-file parser are abstracted into `PathSource` / `FileEntry`, and the
  embedding model into the `embed` parameter.  Python exceptions caught by
  `ingest`'s `try/except` are modelled with `Except` / `Option`.
* `minmaxScale`, `fusedScores` and `retrieve` embed
  `HybridRetriever.retrieve` (toolkits.py lines 208-262).  Scores are
  rationals; `BM25Okapi.get_scores` (external library `rank_bm25`) is a
  function parameter.  `np.argsort` is likewise external: numpy's
  default quicksort is deterministic and returns an ascending
  permutation, but its tie order is implementation-defined once a
  segment exceeds the small-array insertion-sort regime, so `retrieve`
  takes the argsort function as a parameter constrained only by that
  contract (`IsArgsortOf`); `argsortInsertion` is the concrete stable
  insertion sort numpy runs on arrays below the introsort cutoff, used
  to evaluate small concrete pools.
-/

/-- Model of Python `str.endswith(suffix)`: the last `len(suffix)`
characters of `s` equal `suffix`.  (Defined over `String.data` so that the
kernel can evaluate it on literals; semantically identical to
`String.endsWith`.) -/
def strEndsWith (s suf : String) : Bool :=
  decide (suf.data = s.data.drop (s.data.length - suf.data.length))

/-- Model of an `unstructured` text element: an opaque parsed unit with a
`.text` accessor (spec section 3). -/
structure TextElement where
  text : String
deriving DecidableEq, Repr

/-- Model of the document dict `{"file_path": ..., "elements": ...}`
produced by `IngestionToolkit.load_from_path`. -/
structure Document where
  file_path : String
  elements : List TextElement
deriving DecidableEq, Repr

/-- Model of the metadata dict assembled in `RAGPipeline.ingest`
(pipeline.py lines 93-99). -/
structure Metadata where
  file_path : String
  chunk_id : Nat
  source_type : String
  tags : List String
  commit_hash : String
deriving DecidableEq, Repr

/-- Model of a stored Qdrant payload `{"text": chunk, **metadata}`
(toolkits.py line 178). -/
structure Payload where
  text : String
  meta : Metadata
deriving DecidableEq, Repr

/-- Model of `qdrant_client.models.PointStruct` (toolkits.py lines
174-180): id, vector, payload. -/
structure Point where
  id : String
  vector : List ℚ
  payload : Payload
deriving DecidableEq, Repr

/-- Embedding of `IndexingToolkit.chunk_document` (toolkits.py lines
121-145).  The external segmenter `chunk_by_title` is a parameter; in the
Python code each produced chunk is read back through `.text`, so the
parameter directly returns the chunk texts. -/
def chunk_document (chunk_by_title : List TextElement → List String)
    (document : Document) : List String :=
  let file_path := document.file_path
  let elements := document.elements
  if strEndsWith file_path ".py" then
    elements.map TextElement.text
  else if strEndsWith file_path ".md" || strEndsWith file_path ".rst" then
    chunk_by_title elements
  else if strEndsWith file_path ".ipynb" then
    elements.map TextElement.text
  else
    chunk_by_title elements

/-- Model of Python `str.rfind(c)` over the character list: index of the
last occurrence, `-1` if absent. -/
def rfindChar (c : Char) (cs : List Char) : Int :=
  if cs.contains c then (cs.length : Int) - 1 - (cs.reverse.indexOf c : Int) else -1

/-- Model of `os.path.splitext` (posix flavour, as used in pipeline.py
line 96): split off the extension at the last dot of the final path
component, unless every character between the last separator and that dot
is itself a dot (leading dots of a basename never start an extension). -/
def splitext (p : String) : String × String :=
  let cs := p.data
  let sepIndex := rfindChar '/' cs
  let dotIndex := rfindChar '.' cs
  if sepIndex < dotIndex ∧
      ∃ j ∈ List.range cs.length,
        sepIndex < (j : Int) ∧ (j : Int) < dotIndex ∧ cs[j]? ≠ some '.' then
    (⟨cs.take dotIndex.toNat⟩, ⟨cs.drop dotIndex.toNat⟩)
  else
    (p, "")

/-- Model of the vector store's upsert-by-id semantics for a single point
(spec sections 4.2 and 6): if the id is already present every entry with
that id is overwritten in place, otherwise the point is appended. -/
def upsertOne (s : List Point) (p : Point) : List Point :=
  if ∃ q ∈ s, q.id = p.id then
    s.map (fun q => if q.id = p.id then p else q)
  else
    s ++ [p]

/-- Model of `qdrant_client.upsert` over a batch (toolkits.py lines
182-187): points are applied in order, so a later point with the same id
wins. -/
def upsert (s : List Point) (ps : List Point) : List Point :=
  ps.foldl upsertOne s

/-- Point construction loop of `IndexingToolkit.deduplicate_and_store`
(toolkits.py lines 170-180): `for i, (chunk, metadata) in
enumerate(zip(chunks, metadata_list))` builds a point with
`id = md5(chunk)`, `vector = embeddings[i]`,
`payload = {"text": chunk, **metadata}`.  An out-of-range `embeddings[i]`
raises in Python; that is modelled by `none`. -/
def buildPointsAux (md5 : String → String) (embeddings : List (List ℚ)) :
    Nat → List (String × Metadata) → Option (List Point)
  | _, [] => some []
  | i, cm :: rest =>
    match embeddings[i]?, buildPointsAux md5 embeddings (i + 1) rest with
    | some v, some ps =>
        some ({ id := md5 cm.1, vector := v,
                payload := { text := cm.1, meta := cm.2 } } :: ps)
    | _, _ => none

/-- Points built by `deduplicate_and_store` from the zipped
chunk/metadata pairs. -/
def buildPoints (md5 : String → String) (pairs : List (String × Metadata))
    (embeddings : List (List ℚ)) : Option (List Point) :=
  buildPointsAux md5 embeddings 0 pairs

/-- Embedding of `IndexingToolkit.deduplicate_and_store` (toolkits.py
lines 160-187).  `none` models a raised exception (out-of-range
`embeddings[i]`); otherwise the built points are upserted as one batch
(`if points:` guards the call, an empty batch leaves the store as is). -/
def deduplicate_and_store (md5 : String → String) (chunks : List String)
    (embeddings : List (List ℚ)) (metadata_list : List Metadata)
    (store : List Point) : Option (List Point) :=
  match buildPoints md5 (chunks.zip metadata_list) embeddings with
  | none => none
  | some points => some (if points.isEmpty then store else upsert store points)

/-- A file visible to `load_from_path`, together with the outcome of
`unstructured.partition` on it (the parser is an external collaborator;
`Except.error` models a raised parse exception). -/
structure FileEntry where
  path : String
  parsed : Except String (List TextElement)
deriving Repr

/-- The shapes of input path `load_from_path` distinguishes (toolkits.py
lines 79-102): a directory (with the files its walk finds), a single
file, or anything else (nonexistent path).  The GitHub branch iterates
files exactly like the directory branch and is subsumed by `dir`. -/
inductive PathSource where
  | dir (files : List FileEntry)
  | file (f : FileEntry)
  | invalid
deriving Repr

/-- Embedding of `IngestionToolkit.load_from_path` (toolkits.py lines
46-104): every file that parses contributes a document, a per-file parse
failure is logged and skipped, an invalid path yields no documents. -/
def load_from_path : PathSource → List Document
  | .dir files =>
      files.filterMap (fun f =>
        match f.parsed with
        | .ok elems => some { file_path := f.path, elements := elems }
        | .error _ => none)
  | .file f =>
      match f.parsed with
      | .ok elems => [{ file_path := f.path, elements := elems }]
      | .error _ => []
  | .invalid => []

/-- Chunk/metadata assembly for one document in `RAGPipeline.ingest`
(pipeline.py lines 90-99): chunk the document, then pair each chunk with
the metadata dict `{"file_path": ..., "chunk_id": i, "source_type":
os.path.splitext(path)[1], "tags": [], "commit_hash": ""}`. -/
def docChunkMeta (chunk_by_title : List TextElement → List String)
    (doc : Document) : List (String × Metadata) :=
  (chunk_document chunk_by_title doc).enum.map (fun ic =>
    (ic.2, { file_path := doc.file_path, chunk_id := ic.1,
             source_type := (splitext doc.file_path).2,
             tags := [], commit_hash := "" }))

/-- The `all_chunks` / `all_metadata` accumulation loop of
`RAGPipeline.ingest` (pipeline.py lines 84-99), as a list of pairs. -/
def assembleBatch (chunk_by_title : List TextElement → List String)
    (docs : List Document) : List (String × Metadata) :=
  (docs.map (docChunkMeta chunk_by_title)).flatten

/-- Embedding of `RAGPipeline.ingest` (pipeline.py lines 60-111).  The
sentence-transformer model is the parameter `embed` (order-preserving
batch embedding; `Except.error` models a raised exception).  The
`try/except` wrapping the body maps any failure to `(store, false)`;
success returns the new store and `true`. -/
def ingest (chunk_by_title : List TextElement → List String)
    (md5 : String → String)
    (embed : List String → Except String (List (List ℚ)))
    (source : PathSource) (store : List Point) : List Point × Bool :=
  let documents := load_from_path source
  if documents.isEmpty then
    (store, true)
  else
    let batch := assembleBatch chunk_by_title documents
    let all_chunks := batch.map Prod.fst
    let all_metadata := batch.map Prod.snd
    if all_chunks.isEmpty then
      (store, true)
    else
      match embed all_chunks with
      | .error _ => (store, false)
      | .ok embeddings =>
        match deduplicate_and_store md5 all_chunks embeddings all_metadata store with
        | none => (store, false)
        | some s => (s, true)

/-- Minimum of a nonempty numpy array (`arr.min()`); `0` on the empty
array (unreachable in `retrieve`, which returns early on an empty pool). -/
def listMin : List ℚ → ℚ
  | [] => 0
  | x :: xs => xs.foldl min x

/-- Maximum of a nonempty numpy array (`arr.max()`); `0` on the empty
array (unreachable in `retrieve`). -/
def listMax : List ℚ → ℚ
  | [] => 0
  | x :: xs => xs.foldl max x

/-- The constant `1e-10` added to the denominator in the min-max scaling
of `HybridRetriever.retrieve` (toolkits.py lines 242 and 253). -/
def epsilonConst : ℚ := 1 / 10000000000

/-- Min-max normalization step of `HybridRetriever.retrieve` (toolkits.py
lines 241-244 and 252-255): sequences of length greater than one are
rescaled by `(x - min) / (max - min + 1e-10)`; otherwise the sequence is
replaced by the singleton `[1.0]`. -/
def minmaxScale (scores : List ℚ) : List ℚ :=
  if 1 < scores.length then
    scores.map (fun x =>
      (x - listMin scores) / (listMax scores - listMin scores + epsilonConst))
  else
    [1]

/-- Comparison used to model `np.argsort`: order `(index, value)` pairs by
value ascending, with equal values kept in original index order (numpy's
deterministic output for the argsort of a 1-d array). -/
def pairLex (a b : Nat × ℚ) : Prop :=
  a.2 < b.2 ∨ (a.2 = b.2 ∧ a.1 ≤ b.1)

instance : DecidableRel pairLex := fun _ _ =>
  inferInstanceAs (Decidable (_ ∨ _))

instance pairLexTotal : IsTotal (Nat × ℚ) pairLex := by
  constructor
  intro a b
  rcases lt_trichotomy a.2 b.2 with h | h | h
  · exact Or.inl (Or.inl h)
  · rcases Nat.le_total a.1 b.1 with h1 | h1
    · exact Or.inl (Or.inr ⟨h, h1⟩)
    · exact Or.inr (Or.inr ⟨h.symm, h1⟩)
  · exact Or.inr (Or.inl h)

instance pairLexTrans : IsTrans (Nat × ℚ) pairLex := by
  constructor
  rintro a b c (hab | ⟨hab, hab1⟩) (hbc | ⟨hbc, hbc1⟩)
  · exact Or.inl (hab.trans hbc)
  · exact Or.inl (hbc ▸ hab)
  · exact Or.inl (hab ▸ hbc)
  · exact Or.inr ⟨hab.trans hbc, hab1.trans hbc1⟩

/-- Contract of `np.argsort(xs)` common to every sort kind and array
size: the result is a permutation of the positions of `xs` along which
the values come out ascending.  The default `kind='quicksort'`
(introsort) is deterministic, but its tie order is implementation-defined
once a segment exceeds the small-array insertion-sort regime, so the
argsort function is kept abstract and constrained only by this
contract. -/
def IsArgsortOf (argsortFn : List ℚ → List Nat) : Prop :=
  ∀ xs : List ℚ,
    (argsortFn xs).Perm (List.range xs.length) ∧
    (argsortFn xs).Pairwise (fun i j => xs.getD i 0 ≤ xs.getD j 0)

/-- Behaviour of `np.argsort` on arrays inside numpy's small-array
regime: below the introsort cutoff (16 elements) numpy runs a stable
insertion sort, so equal values keep their original relative order.
Used to evaluate the concrete (2-element and 1-element) candidate pools
of this development; NOT a model of numpy's tie order on larger
arrays. -/
def argsortInsertion (xs : List ℚ) : List Nat :=
  (List.insertionSort pairLex xs.enum).map Prod.fst

/-- Model of Python `str.split()` with no argument: split on whitespace
runs, discarding empty tokens. -/
def pySplit (s : String) : List String :=
  (s.split (fun c => c.isWhitespace)).filter (fun t => t ≠ "")

/-- The fused score vector of `HybridRetriever.retrieve` (toolkits.py
lines 239-259): min-max-scaled semantic scores and min-max-scaled BM25
scores combined as `(1 - w) * semantic + w * bm25`.  `bm25` is the
external `BM25Okapi(tokenized_candidates).get_scores(query_tokens)`. -/
def fusedScores (bm25 : List (List String) → List String → List ℚ)
    (search_results : List (Payload × ℚ)) (keyword_query : String)
    (bm25_weight : ℚ) : List ℚ :=
  let candidate_texts := (search_results.map Prod.fst).map Payload.text
  let semantic_scores := minmaxScale (search_results.map Prod.snd)
  let tokenized_candidates := candidate_texts.map pySplit
  let bm25_scores := minmaxScale (bm25 tokenized_candidates (pySplit keyword_query))
  List.zipWith (fun s b => (1 - bm25_weight) * s + bm25_weight * b)
    semantic_scores bm25_scores

/-- Default of the `bm25_weight` argument of `HybridRetriever.retrieve`
(toolkits.py line 208). -/
def bm25_weight_default : ℚ := 1 / 2

/-- Embedding of `HybridRetriever.retrieve` (toolkits.py lines 208-262)
from the vector-store search results on:  `search_results` is the ranked
`(payload, score)` list the store returned for the semantic query (the
embedding model and the store's nearest-neighbour search are external
collaborators), `bm25` the external BM25 scorer, and `argsortFn` the
external `np.argsort` (see `IsArgsortOf`).  Returns the reranked
payloads along `argsort(combined_scores)[::-1]` (line 260), truncated to
`final_top_m`. -/
def retrieve (argsortFn : List ℚ → List Nat)
    (bm25 : List (List String) → List String → List ℚ)
    (search_results : List (Payload × ℚ)) (keyword_query : String)
    (bm25_weight : ℚ) (final_top_m : Nat) : List Payload :=
  if search_results.isEmpty then
    []
  else
    let candidates := search_results.map Prod.fst
    let combined_scores := fusedScores bm25 search_results keyword_query bm25_weight
    let top_indices := ((argsortFn combined_scores).reverse).take final_top_m
    top_indices.filterMap (fun i => candidates[i]?)

/-- The last point of `ps` carrying id `i`, if any. -/
def lastWith (ps : List Point) (i : String) : Option Point :=
  (ps.filter (fun p => decide (p.id = i))).getLast?

/-- What a stored point `q` becomes once the batch `ps` has been applied
on top of it: the last point of `ps` with `q`'s id, or `q` itself if the
batch never writes that id. -/
def resolveLast (ps : List Point) (q : Point) : Point :=
  (lastWith ps q.id).getD q

theorem upsertOne_present {s : List Point} {p : Point}
    (h : ∃ q ∈ s, q.id = p.id) :
    upsertOne s p = s.map (fun q => if q.id = p.id then p else q) := by
  unfold upsertOne
  exact if_pos h

theorem upsertOne_absent {s : List Point} {p : Point}
    (h : ¬ ∃ q ∈ s, q.id = p.id) :
    upsertOne s p = s ++ [p] := by
  unfold upsertOne
  exact if_neg h

theorem ow_id (p q : Point) : (if q.id = p.id then p else q).id = q.id := by
  by_cases h : q.id = p.id <;> simp [h]

theorem exists_id_upsertOne {s : List Point} {x : String} (p : Point)
    (h : ∃ q ∈ s, q.id = x) : ∃ q ∈ upsertOne s p, q.id = x := by
  obtain ⟨q, hq, hid⟩ := h
  by_cases hp : ∃ r ∈ s, r.id = p.id
  · rw [upsertOne_present hp]
    exact ⟨_, List.mem_map_of_mem _ hq, (ow_id p q).trans hid⟩
  · rw [upsertOne_absent hp]
    exact ⟨q, List.mem_append_left _ hq, hid⟩

theorem self_id_upsertOne (s : List Point) (p : Point) :
    ∃ q ∈ upsertOne s p, q.id = p.id := by
  by_cases hp : ∃ r ∈ s, r.id = p.id
  · obtain ⟨r, hr, hrid⟩ := hp
    rw [upsertOne_present ⟨r, hr, hrid⟩]
    exact ⟨_, List.mem_map_of_mem _ hr, (ow_id p r).trans hrid⟩
  · rw [upsertOne_absent hp]
    exact ⟨p, List.mem_append_right _ (List.mem_singleton_self p), rfl⟩

theorem exists_id_upsert {x : String} (ps : List Point) :
    ∀ s, (∃ q ∈ s, q.id = x) → ∃ q ∈ upsert s ps, q.id = x := by
  induction ps with
  | nil => intro s h; exact h
  | cons p rest ih => intro s h; exact ih _ (exists_id_upsertOne p h)

theorem mem_exists_id_upsert {p : Point} {ps : List Point} (hp : p ∈ ps) :
    ∀ s, ∃ q ∈ upsert s ps, q.id = p.id := by
  induction ps with
  | nil => cases hp
  | cons a rest ih =>
    intro s
    rcases List.mem_cons.1 hp with h | h
    · subst h
      exact exists_id_upsert rest _ (self_id_upsertOne s p)
    · exact ih h (upsertOne s a)

theorem getD_getLast?_cons {α : Type} : ∀ (l : List α) (a b : α),
    ((a :: l).getLast?).getD b = (l.getLast?).getD a
  | [], _, _ => rfl
  | x :: xs, a, b => by
    rw [List.getLast?_cons_cons, getD_getLast?_cons xs x b, getD_getLast?_cons xs x a]

theorem resolveLast_nil (q : Point) : resolveLast [] q = q := rfl

theorem resolveLast_cons (p : Point) (rest : List Point) (q : Point) :
    resolveLast (p :: rest) q = resolveLast rest (if q.id = p.id then p else q) := by
  by_cases h : q.id = p.id
  · rw [if_pos h]
    unfold resolveLast lastWith
    rw [List.filter_cons, if_pos (by simp [h.symm]), getD_getLast?_cons, h]
  · rw [if_neg h]
    unfold resolveLast lastWith
    rw [List.filter_cons, if_neg (by simp [Ne.symm h])]

theorem upsert_eq_map_resolveLast (ps : List Point) :
    ∀ t, (∀ p ∈ ps, ∃ q ∈ t, q.id = p.id) →
      upsert t ps = t.map (resolveLast ps) := by
  induction ps with
  | nil =>
    intro t _
    have hid : resolveLast [] = id := funext resolveLast_nil
    show t = _
    rw [hid, List.map_id]
  | cons p rest ih =>
    intro t h
    have hp := h p (List.mem_cons_self p rest)
    have hrest : ∀ r ∈ rest,
        ∃ q ∈ t.map (fun q => if q.id = p.id then p else q), q.id = r.id := by
      intro r hr
      obtain ⟨w, hw, hwid⟩ := h r (List.mem_cons_of_mem _ hr)
      exact ⟨_, List.mem_map_of_mem _ hw, (ow_id p w).trans hwid⟩
    show upsert (upsertOne t p) rest = _
    rw [upsertOne_present hp, ih _ hrest, List.map_map]
    exact List.map_congr_left (fun q _ => (resolveLast_cons p rest q).symm)

theorem resolveLast_concat_eq {init : List Point} {p q : Point}
    (h : q.id = p.id) : resolveLast (init ++ [p]) q = p := by
  unfold resolveLast lastWith
  rw [List.filter_append]
  have h1 : List.filter (fun r => decide (r.id = q.id)) [p] = [p] := by
    simp [h.symm]
  rw [h1, List.getLast?_concat]
  rfl

theorem resolveLast_concat_ne {init : List Point} {p q : Point}
    (h : q.id ≠ p.id) : resolveLast (init ++ [p]) q = resolveLast init q := by
  unfold resolveLast lastWith
  rw [List.filter_append]
  have h1 : List.filter (fun r => decide (r.id = q.id)) [p] = [] := by
    simp [Ne.symm h]
  rw [h1, List.append_nil]

theorem resolveLast_fixed (ps : List Point) :
    ∀ t, ∀ q ∈ upsert t ps, resolveLast ps q = q := by
  induction ps using List.reverseRecOn with
  | nil => intro t q _; exact resolveLast_nil q
  | append_singleton init p ih =>
    intro t q hq
    have hq' : q ∈ upsertOne (upsert t init) p := by
      simpa only [upsert, List.foldl_append, List.foldl_cons, List.foldl_nil] using hq
    by_cases hpres : ∃ r ∈ upsert t init, r.id = p.id
    · rw [upsertOne_present hpres] at hq'
      obtain ⟨r, hr, hrq⟩ := List.mem_map.1 hq'
      by_cases hrp : r.id = p.id
      · rw [if_pos hrp] at hrq
        subst hrq
        exact resolveLast_concat_eq rfl
      · rw [if_neg hrp] at hrq
        subst hrq
        rw [resolveLast_concat_ne hrp]
        exact ih t r hr
    · rw [upsertOne_absent hpres] at hq'
      rcases List.mem_append.1 hq' with hmem | hmem
      · have hne : q.id ≠ p.id := fun hh => hpres ⟨q, hmem, hh⟩
        rw [resolveLast_concat_ne hne]
        exact ih t q hmem
      · have hqp : q = p := List.mem_singleton.1 hmem
        subst hqp
        exact resolveLast_concat_eq rfl

/-- Upserting the same batch twice is the same as upserting it once: the
key property behind idempotent ingestion. -/
theorem upsert_idem (s ps : List Point) :
    upsert (upsert s ps) ps = upsert s ps := by
  rw [upsert_eq_map_resolveLast ps (upsert s ps)
      (fun p hp => mem_exists_id_upsert hp s)]
  rw [List.map_congr_left (fun q hq => resolveLast_fixed ps s q hq)]
  exact List.map_id _

/-- Running `deduplicate_and_store` again with the same batch on its own
output leaves the store unchanged. -/
theorem deduplicate_and_store_idem {md5 : String → String}
    {chunks : List String} {embeddings : List (List ℚ)}
    {metadata_list : List Metadata} {store s : List Point}
    (h : deduplicate_and_store md5 chunks embeddings metadata_list store = some s) :
    deduplicate_and_store md5 chunks embeddings metadata_list s = some s := by
  unfold deduplicate_and_store at h ⊢
  cases hb : buildPoints md5 (chunks.zip metadata_list) embeddings with
  | none => rw [hb] at h; cases h
  | some points =>
    rw [hb] at h
    have hval : (if points.isEmpty then store else upsert store points) = s :=
      Option.some.inj h
    show some (if points.isEmpty then s else upsert s points) = some s
    by_cases he : points.isEmpty
    · rw [if_pos he]
    · rw [if_neg he] at hval ⊢
      rw [← hval, upsert_idem]

/-- C1: Ingestion is idempotent: for every document source, running the
ingest pipeline (chunk, embed, deduplicate_and_store) twice into the same
collection leaves the collection in exactly the same final state as
running it once (hence the same set of point ids, the same point count,
and identical payload content for every id), and with the same reported
outcome. -/
theorem ingest_idempotent
    (chunk_by_title : List TextElement → List String) (md5 : String → String)
    (embed : List String → Except String (List (List ℚ)))
    (source : PathSource) (store : List Point) :
    ingest chunk_by_title md5 embed source
        (ingest chunk_by_title md5 embed source store).1
      = ingest chunk_by_title md5 embed source store := by
  by_cases hdocs : (load_from_path source).isEmpty = true
  · simp [ingest, hdocs]
  · by_cases hchunks :
        ((assembleBatch chunk_by_title (load_from_path source)).map Prod.fst).isEmpty = true
    · simp [ingest, hdocs, hchunks]
    · cases hemb : embed
          ((assembleBatch chunk_by_title (load_from_path source)).map Prod.fst) with
      | error e => simp [ingest, hdocs, hchunks, hemb]
      | ok embeddings =>
        cases hded : deduplicate_and_store md5
            ((assembleBatch chunk_by_title (load_from_path source)).map Prod.fst)
            embeddings
            ((assembleBatch chunk_by_title (load_from_path source)).map Prod.snd)
            store with
        | none => simp [ingest, hdocs, hchunks, hemb, hded]
        | some s1 =>
          simp [ingest, hdocs, hchunks, hemb, hded, deduplicate_and_store_idem hded]

/-- A concrete instance of the external `chunk_by_title` collaborator:
the behaviour of title-aware segmentation on a document none of whose
elements is a heading — consecutive elements merge into one chunk (spec
section 4.1). -/
def joinSegmenter : List TextElement → List String :=
  fun es => [String.join (es.map TextElement.text)]

theorem buildPointsAux_id_eq_md5_text {md5 : String → String}
    {embeddings : List (List ℚ)} :
    ∀ (pairs : List (String × Metadata)) (i : Nat) (points : List Point),
      buildPointsAux md5 embeddings i pairs = some points →
      ∀ p ∈ points, p.id = md5 p.payload.text := by
  intro pairs
  induction pairs with
  | nil =>
    intro i points h p hp
    cases h
    cases hp
  | cons cm rest ih =>
    intro i points h p hp
    cases hv : embeddings[i]? with
    | none => rw [buildPointsAux, hv] at h; cases h
    | some v =>
      cases hrest : buildPointsAux md5 embeddings (i + 1) rest with
      | none => rw [buildPointsAux, hv, hrest] at h; cases h
      | some ps =>
        rw [buildPointsAux, hv, hrest] at h
        cases h
        rcases List.mem_cons.1 hp with hh | hh
        · subst hh; rfl
        · exact ih (i + 1) ps hrest p hh

theorem buildPointsAux_total {md5 : String → String}
    {embeddings : List (List ℚ)} :
    ∀ (pairs : List (String × Metadata)) (i : Nat),
      i + pairs.length ≤ embeddings.length →
      ∃ points, buildPointsAux md5 embeddings i pairs = some points ∧
        points.length = pairs.length := by
  intro pairs
  induction pairs with
  | nil => intro i _; exact ⟨[], rfl, rfl⟩
  | cons cm rest ih =>
    intro i h
    have hi : i < embeddings.length := by
      simp only [List.length_cons] at h
      omega
    have hv : embeddings[i]? = some embeddings[i] := List.getElem?_eq_getElem hi
    obtain ⟨ps, hps, hlen⟩ := ih (i + 1) (by simp only [List.length_cons] at h; omega)
    refine ⟨{ id := md5 cm.1, vector := embeddings[i],
              payload := { text := cm.1, meta := cm.2 } } :: ps, ?_, ?_⟩
    · rw [buildPointsAux, hv, hps]
    · simp [hlen]

/-- C2: Content-addressed deduplication: every stored point's id is the
digest of its chunk text, so two chunks with equal text always get the
same point id regardless of source file or position; concretely, two
files contributing the same chunk text into an empty collection leave
exactly one stored point, whose metadata is the one written last. -/
theorem dedup_by_content (md5 : String → String) :
    (∀ (chunks : List String) (metas : List Metadata)
        (embeddings : List (List ℚ)) (points : List Point),
        buildPoints md5 (chunks.zip metas) embeddings = some points →
        ∀ p ∈ points, ∀ q ∈ points,
          p.payload.text = q.payload.text → p.id = q.id) ∧
    (∀ (c : String) (v1 v2 : List ℚ) (m1 m2 : Metadata),
        deduplicate_and_store md5 [c, c] [v1, v2] [m1, m2] [] =
          some [{ id := md5 c, vector := v2,
                  payload := { text := c, meta := m2 } }]) := by
  constructor
  · intro chunks metas embeddings points h p hp q hq htext
    rw [buildPointsAux_id_eq_md5_text _ 0 points h p hp,
        buildPointsAux_id_eq_md5_text _ 0 points h q hq, htext]
  · intro c v1 v2 m1 m2
    simp [deduplicate_and_store, buildPoints, buildPointsAux, upsert, upsertOne]

theorem dedup_by_content_witness :
    ({ id := "hx", vector := [(1 : ℚ)],
       payload := { text := "x", meta := ⟨"f1", 0, ".py", [], ""⟩ } } : Point).id
      = ({ id := "hx", vector := [(2 : ℚ)],
           payload := { text := "x", meta := ⟨"f2", 7, ".md", [], ""⟩ } } : Point).id ∧
    deduplicate_and_store (fun _ => "hx") ["x", "x"] [[1], [2]]
        [⟨"f1", 0, ".py", [], ""⟩, ⟨"f2", 7, ".md", [], ""⟩] [] =
      some [{ id := "hx", vector := [2],
              payload := { text := "x", meta := ⟨"f2", 7, ".md", [], ""⟩ } }] := by
  constructor
  · exact (dedup_by_content (fun _ => "hx")).1 ["x", "x"]
      [⟨"f1", 0, ".py", [], ""⟩, ⟨"f2", 7, ".md", [], ""⟩] [[1], [2]]
      [{ id := "hx", vector := [1],
         payload := { text := "x", meta := ⟨"f1", 0, ".py", [], ""⟩ } },
       { id := "hx", vector := [2],
         payload := { text := "x", meta := ⟨"f2", 7, ".md", [], ""⟩ } }]
      (by decide) _ (by decide) _ (by decide) rfl
  · exact (dedup_by_content (fun _ => "hx")).2 "x" [1] [2]
      ⟨"f1", 0, ".py", [], ""⟩ ⟨"f2", 7, ".md", [], ""⟩

/-- C3 counterexample: the dispatch in `chunk_document` is case-sensitive
(`str.endswith(".py")`), so a document named `A.PY` with two elements is
routed to the title-aware segmentation — modelled here on a document with
no headings, where consecutive elements merge — instead of producing one
chunk per element as the claim requires. -/
theorem chunk_dispatch_counterexample :
    chunk_document joinSegmenter
        { file_path := "A.PY", elements := [⟨"x"⟩, ⟨"y"⟩] } = ["xy"] ∧
    (["xy"] : List String) ≠ ["x", "y"] := by
  constructor
  · decide
  · decide

/-- C3 amended: chunking policy is dispatched by file extension
case-sensitively, in the branch order of the code: a path ending in the
exact lowercase `.py` (or, failing `.md`/`.rst`, in the exact lowercase
`.ipynb`) gets one chunk per TextElement in element order, unmodified;
`.md`/`.rst` and every other path — including upper-case variants such as
`.PY` — go through the title-aware segmentation. -/
theorem chunk_dispatch_case_sensitive
    (chunk_by_title : List TextElement → List String) (doc : Document) :
    (strEndsWith doc.file_path ".py" = true →
        chunk_document chunk_by_title doc = doc.elements.map TextElement.text) ∧
    (strEndsWith doc.file_path ".py" = false →
      (strEndsWith doc.file_path ".md" = true ∨ strEndsWith doc.file_path ".rst" = true) →
        chunk_document chunk_by_title doc = chunk_by_title doc.elements) ∧
    (strEndsWith doc.file_path ".py" = false →
      strEndsWith doc.file_path ".md" = false →
      strEndsWith doc.file_path ".rst" = false →
      strEndsWith doc.file_path ".ipynb" = true →
        chunk_document chunk_by_title doc = doc.elements.map TextElement.text) ∧
    (strEndsWith doc.file_path ".py" = false →
      strEndsWith doc.file_path ".md" = false →
      strEndsWith doc.file_path ".rst" = false →
      strEndsWith doc.file_path ".ipynb" = false →
        chunk_document chunk_by_title doc = chunk_by_title doc.elements) := by
  refine ⟨fun h1 => ?_, fun h1 h2 => ?_, fun h1 h2 h3 h4 => ?_, fun h1 h2 h3 h4 => ?_⟩
  · simp [chunk_document, h1]
  · rcases h2 with h2 | h2 <;> simp [chunk_document, h1, h2]
  · simp [chunk_document, h1, h2, h3, h4]
  · simp [chunk_document, h1, h2, h3, h4]

theorem chunk_dispatch_case_sensitive_witness :
    chunk_document joinSegmenter { file_path := "a.py", elements := [⟨"x"⟩, ⟨"y"⟩] }
      = [TextElement.text ⟨"x"⟩, TextElement.text ⟨"y"⟩] ∧
    chunk_document joinSegmenter { file_path := "a.md", elements := [⟨"x"⟩, ⟨"y"⟩] }
      = joinSegmenter [⟨"x"⟩, ⟨"y"⟩] ∧
    chunk_document joinSegmenter { file_path := "a.ipynb", elements := [⟨"x"⟩] }
      = [TextElement.text ⟨"x"⟩] ∧
    chunk_document joinSegmenter { file_path := "A.PY", elements := [⟨"x"⟩, ⟨"y"⟩] }
      = joinSegmenter [⟨"x"⟩, ⟨"y"⟩] :=
  ⟨(chunk_dispatch_case_sensitive joinSegmenter _).1 (by decide),
   (chunk_dispatch_case_sensitive joinSegmenter _).2.1 (by decide) (Or.inl (by decide)),
   (chunk_dispatch_case_sensitive joinSegmenter _).2.2.1 (by decide) (by decide) (by decide) (by decide),
   (chunk_dispatch_case_sensitive joinSegmenter _).2.2.2 (by decide) (by decide) (by decide) (by decide)⟩

/-- C4: Order preservation: a document with elements `[A, B, C]` handled
by the source-code policy produces exactly the chunks
`[A.text, B.text, C.text]` in that order, and the `chunk_id` values in
the metadata assembled for it by the ingest loop are `[0, 1, 2]`. -/
theorem order_preservation
    (chunk_by_title : List TextElement → List String) (path : String)
    (A B C : TextElement) (h : strEndsWith path ".py" = true) :
    chunk_document chunk_by_title { file_path := path, elements := [A, B, C] }
        = [A.text, B.text, C.text] ∧
    (assembleBatch chunk_by_title [{ file_path := path, elements := [A, B, C] }]).map
        (fun cm => cm.2.chunk_id) = [0, 1, 2] := by
  have hc : chunk_document chunk_by_title { file_path := path, elements := [A, B, C] }
      = [A.text, B.text, C.text] := by
    simp [chunk_document, h]
  refine ⟨hc, ?_⟩
  simp only [assembleBatch, List.map_cons, List.map_nil, docChunkMeta, hc]
  rfl

theorem order_preservation_witness :
    chunk_document joinSegmenter
        { file_path := "m.py", elements := [⟨"a"⟩, ⟨"b"⟩, ⟨"c"⟩] } = ["a", "b", "c"] ∧
    (assembleBatch joinSegmenter
        [{ file_path := "m.py", elements := [⟨"a"⟩, ⟨"b"⟩, ⟨"c"⟩] }]).map
        (fun cm => cm.2.chunk_id) = [0, 1, 2] :=
  order_preservation joinSegmenter "m.py" ⟨"a"⟩ ⟨"b"⟩ ⟨"c"⟩ (by decide)

/-- C7 counterexample: `deduplicate_and_store` zips a 2-chunk list with a
1-element metadata list and silently stores the single zipped pair — no
error of any kind is raised for the length mismatch. -/
theorem mismatched_lengths_counterexample :
    deduplicate_and_store (fun s => s) ["a", "b"] [[1], [2]]
        [⟨"f", 0, ".txt", [], ""⟩] [] =
      some [{ id := "a", vector := [1],
              payload := { text := "a", meta := ⟨"f", 0, ".txt", [], ""⟩ } }] := by
  decide

/-- C7 amended: a call to `deduplicate_and_store` with chunk and metadata
lists of different lengths does not fail with an invalid-input error;
`zip` silently truncates the batch to the shorter list, and (whenever
enough embeddings are present for the truncated batch) exactly
`min(len(chunks), len(metadata))` points are built and upserted. -/
theorem mismatched_lengths_truncate (md5 : String → String)
    (chunks : List String) (embeddings : List (List ℚ))
    (metas : List Metadata) (store : List Point)
    (h : min chunks.length metas.length ≤ embeddings.length) :
    ∃ points, buildPoints md5 (chunks.zip metas) embeddings = some points ∧
      points.length = min chunks.length metas.length ∧
      deduplicate_and_store md5 chunks embeddings metas store =
        some (if points.isEmpty then store else upsert store points) := by
  have hlen : (chunks.zip metas).length = min chunks.length metas.length :=
    List.length_zip chunks metas
  obtain ⟨points, hpts, hplen⟩ :=
    @buildPointsAux_total md5 embeddings (chunks.zip metas) 0 (by omega)
  refine ⟨points, hpts, by rw [hplen, hlen], ?_⟩
  unfold deduplicate_and_store
  rw [show buildPoints md5 (chunks.zip metas) embeddings = some points from hpts]

theorem mismatched_lengths_truncate_witness :
    ∃ points, buildPoints (fun s => s)
        ((["a", "b"]).zip [(⟨"f", 0, ".txt", [], ""⟩ : Metadata)]) [[1], [2]]
        = some points ∧
      points.length = min (["a", "b"]).length [(⟨"f", 0, ".txt", [], ""⟩ : Metadata)].length ∧
      deduplicate_and_store (fun s => s) ["a", "b"] [[1], [2]]
          [⟨"f", 0, ".txt", [], ""⟩] [] =
        some (if points.isEmpty then [] else upsert [] points) :=
  mismatched_lengths_truncate (fun s => s) ["a", "b"] [[1], [2]]
    [⟨"f", 0, ".txt", [], ""⟩] [] (by decide)

theorem foldl_max_init : ∀ (l : List ℚ) (a : ℚ), a ≤ l.foldl max a
  | [], a => le_refl a
  | b :: t, a => le_trans (le_max_left a b) (foldl_max_init t (max a b))

theorem foldl_max_mem : ∀ (l : List ℚ) (a x : ℚ), x ∈ l → x ≤ l.foldl max a
  | [], _, _, hx => absurd hx (List.not_mem_nil _)
  | b :: t, a, x, hx => by
    rcases List.mem_cons.1 hx with h | h
    · subst h
      exact le_trans (le_max_right a x) (foldl_max_init t (max a x))
    · exact foldl_max_mem t (max a b) x h

theorem le_listMax {l : List ℚ} {x : ℚ} (hx : x ∈ l) : x ≤ listMax l := by
  cases l with
  | nil => cases hx
  | cons a t =>
    rcases List.mem_cons.1 hx with h | h
    · subst h; exact foldl_max_init t x
    · exact foldl_max_mem t a x h

theorem foldl_min_init : ∀ (l : List ℚ) (a : ℚ), l.foldl min a ≤ a
  | [], a => le_refl a
  | b :: t, a => le_trans (foldl_min_init t (min a b)) (min_le_left a b)

theorem foldl_min_mem : ∀ (l : List ℚ) (a x : ℚ), x ∈ l → l.foldl min a ≤ x
  | [], _, _, hx => absurd hx (List.not_mem_nil _)
  | b :: t, a, x, hx => by
    rcases List.mem_cons.1 hx with h | h
    · subst h
      exact le_trans (foldl_min_init t (min a x)) (min_le_right a x)
    · exact foldl_min_mem t (min a b) x h

theorem listMin_le {l : List ℚ} {x : ℚ} (hx : x ∈ l) : listMin l ≤ x := by
  cases l with
  | nil => cases hx
  | cons a t =>
    rcases List.mem_cons.1 hx with h | h
    · subst h; exact foldl_min_init t x
    · exact foldl_min_mem t a x h

/-- C5: Score normalization in `retrieve`: a score sequence of length
greater than one (the semantic scores and the BM25 scores are each passed
through `minmaxScale` independently) is rescaled into `[0, 1]` by
`(x - min) / (max - min + ε)` with `ε = 1e-10 > 0`; a sequence from a
pool of exactly one candidate is replaced by `[1.0]`, so the sole
candidate's scaled semantic and keyword scores are both 1.0. -/
theorem score_normalization (scores : List ℚ) :
    (1 < scores.length →
      minmaxScale scores = scores.map (fun x =>
        (x - listMin scores) / (listMax scores - listMin scores + epsilonConst)) ∧
      ∀ y ∈ minmaxScale scores, 0 ≤ y ∧ y ≤ 1) ∧
    (scores.length = 1 → minmaxScale scores = [1]) ∧
    0 < epsilonConst := by
  have heps : 0 < epsilonConst := by norm_num [epsilonConst]
  refine ⟨fun h => ⟨by rw [minmaxScale, if_pos h], ?_⟩, fun h => ?_, heps⟩
  · intro y hy
    rw [minmaxScale, if_pos h] at hy
    obtain ⟨x, hx, rfl⟩ := List.mem_map.1 hy
    have hmin : listMin scores ≤ x := listMin_le hx
    have hmax : x ≤ listMax scores := le_listMax hx
    have hpos : 0 < listMax scores - listMin scores + epsilonConst := by linarith
    constructor
    · exact div_nonneg (by linarith) (le_of_lt hpos)
    · rw [div_le_one hpos]; linarith
  · rw [minmaxScale, if_neg (by omega)]

theorem score_normalization_witness :
    (∀ y ∈ minmaxScale [(0 : ℚ), 1], 0 ≤ y ∧ y ≤ 1) ∧ minmaxScale [(5 : ℚ)] = [1] :=
  ⟨((score_normalization [0, 1]).1 (by decide)).2,
   (score_normalization [5]).2.1 (by decide)⟩

theorem argsortInsertion_perm (xs : List ℚ) :
    (argsortInsertion xs).Perm (List.range xs.length) := by
  have h1 : (List.insertionSort pairLex xs.enum).Perm xs.enum :=
    List.perm_insertionSort pairLex xs.enum
  have h2 := h1.map Prod.fst
  rw [List.enum_map_fst] at h2
  exact h2

theorem argsortInsertion_sorted (xs : List ℚ) :
    (argsortInsertion xs).Pairwise (fun i j => xs.getD i 0 ≤ xs.getD j 0) := by
  have hsorted : (List.insertionSort pairLex xs.enum).Pairwise pairLex :=
    List.sorted_insertionSort pairLex xs.enum
  have hperm : (List.insertionSort pairLex xs.enum).Perm xs.enum :=
    List.perm_insertionSort pairLex xs.enum
  have hmem : ∀ p ∈ List.insertionSort pairLex xs.enum, xs.getD p.1 0 = p.2 := by
    intro p hp
    obtain ⟨i, v⟩ := p
    have hpe : (i, v) ∈ xs.enum := hperm.subset hp
    obtain ⟨hlt, hval⟩ := List.mem_enum hpe
    rw [List.getD_eq_getElem xs 0 hlt, hval]
  have hpair : (List.insertionSort pairLex xs.enum).Pairwise
      (fun a b => xs.getD a.1 0 ≤ xs.getD b.1 0) := by
    refine hsorted.imp_of_mem ?_
    intro a b ha hb hab
    rw [hmem a ha, hmem b hb]
    rcases hab with hlt | ⟨heq, _⟩
    · exact le_of_lt hlt
    · exact le_of_eq heq
  exact List.pairwise_map.2 hpair

/-- The stable small-array insertion sort satisfies numpy's argsort
contract. -/
theorem argsortInsertion_isArgsortOf : IsArgsortOf argsortInsertion :=
  fun xs => ⟨argsortInsertion_perm xs, argsortInsertion_sorted xs⟩

/-- C6 amended: `retrieve` computes
`fused = (1 - w) * semanticScaled + w * keywordScaled` (the default
weight being 0.5) and — for any argsort function satisfying numpy's
contract — emits the candidates along `argsort(fused)[::-1]` truncated
to `final_top_m`: the index order is a permutation of the candidate
positions along which the fused scores are DESCENDING, deterministically
recomputed from the inputs (in the model `retrieve` is a function, so
identical inputs give identical output).  But ties in fused score are
NOT broken by the candidate's original vector-similarity rank: tie order
is whatever numpy's implementation-defined argsort tie order reverses to
— on a tied pool of two, where numpy demonstrably runs its stable
small-array insertion sort, the LATER-ranked candidate is returned first
(see the counterexample). -/
theorem fused_ranking (argsortFn : List ℚ → List Nat)
    (bm25 : List (List String) → List String → List ℚ)
    (search_results : List (Payload × ℚ)) (keyword_query : String)
    (w : ℚ) (m : Nat) (hsort : IsArgsortOf argsortFn)
    (hne : search_results.isEmpty = false) :
    retrieve argsortFn bm25 search_results keyword_query w m
        = (((argsortFn (fusedScores bm25 search_results keyword_query w)).reverse).take m).filterMap
            (fun i => (search_results.map Prod.fst)[i]?) ∧
    ((argsortFn (fusedScores bm25 search_results keyword_query w)).reverse).Pairwise
        (fun i j =>
          (fusedScores bm25 search_results keyword_query w).getD j 0
              ≤ (fusedScores bm25 search_results keyword_query w).getD i 0) ∧
    ((argsortFn (fusedScores bm25 search_results keyword_query w)).reverse).Perm
        (List.range (fusedScores bm25 search_results keyword_query w).length) ∧
    bm25_weight_default = 1 / 2 := by
  obtain ⟨hperm, hasc⟩ := hsort (fusedScores bm25 search_results keyword_query w)
  refine ⟨?_, List.pairwise_reverse.2 hasc, (List.reverse_perm _).trans hperm, rfl⟩
  rw [retrieve, if_neg (by simp [hne])]

theorem fused_ranking_witness :
    retrieve argsortInsertion (fun _ _ => [1])
        [(⟨"t", ⟨"f", 0, ".md", [], ""⟩⟩, 2)] "k" (1 / 2) 1
        = (((argsortInsertion (fusedScores (fun _ _ => [1])
              [(⟨"t", ⟨"f", 0, ".md", [], ""⟩⟩, 2)] "k" (1 / 2))).reverse).take 1).filterMap
            (fun i => (([(⟨"t", ⟨"f", 0, ".md", [], ""⟩⟩, 2)] : List (Payload × ℚ)).map
              Prod.fst)[i]?) ∧
    ((argsortInsertion (fusedScores (fun _ _ => [1])
        [(⟨"t", ⟨"f", 0, ".md", [], ""⟩⟩, 2)] "k" (1 / 2))).reverse).Pairwise
        (fun i j =>
          (fusedScores (fun _ _ => [1])
              [(⟨"t", ⟨"f", 0, ".md", [], ""⟩⟩, 2)] "k" (1 / 2)).getD j 0
              ≤ (fusedScores (fun _ _ => [1])
              [(⟨"t", ⟨"f", 0, ".md", [], ""⟩⟩, 2)] "k" (1 / 2)).getD i 0) ∧
    ((argsortInsertion (fusedScores (fun _ _ => [1])
        [(⟨"t", ⟨"f", 0, ".md", [], ""⟩⟩, 2)] "k" (1 / 2))).reverse).Perm
        (List.range (fusedScores (fun _ _ => [1])
            [(⟨"t", ⟨"f", 0, ".md", [], ""⟩⟩, 2)] "k" (1 / 2)).length) ∧
    bm25_weight_default = 1 / 2 :=
  fused_ranking argsortInsertion (fun _ _ => [1])
    [(⟨"t", ⟨"f", 0, ".md", [], ""⟩⟩, 2)] "k" (1 / 2) 1
    argsortInsertion_isArgsortOf (by decide)

/-- C6 counterexample: two candidates with identical raw semantic scores
and identical texts (so any BM25 scorer — here the realistic stub for a
query sharing no token with the corpus — gives them equal keyword
scores) tie at the same fused score.  The pool has two elements, far
below numpy's introsort cutoff, so `np.argsort` provably runs its
stable insertion sort (`argsortInsertion`): `argsort([0,0])[::-1]` is
`[1, 0]` and `retrieve` returns the SECOND candidate of the original
vector-similarity ranking first, contradicting tie-breaking by original
rank. -/
theorem tie_break_counterexample :
    retrieve argsortInsertion (fun _ _ => [0, 0])
        [(⟨"a", ⟨"f0", 0, ".py", [], ""⟩⟩, 1), (⟨"a", ⟨"f1", 0, ".py", [], ""⟩⟩, 1)]
        "q" (1 / 2) 10
      = [⟨"a", ⟨"f1", 0, ".py", [], ""⟩⟩, ⟨"a", ⟨"f0", 0, ".py", [], ""⟩⟩] ∧
    (⟨"a", ⟨"f1", 0, ".py", [], ""⟩⟩ : Payload) ≠ ⟨"a", ⟨"f0", 0, ".py", [], ""⟩⟩ := by
  constructor
  · have h : fusedScores (fun _ _ => [0, 0])
        [(⟨"a", ⟨"f0", 0, ".py", [], ""⟩⟩, 1), (⟨"a", ⟨"f1", 0, ".py", [], ""⟩⟩, 1)]
        "q" (1 / 2) = [0, 0] := by
      simp [fusedScores, minmaxScale, listMin, listMax, epsilonConst]
    simp only [retrieve, h]
    decide
  · decide

/-- C8 counterexample: a run over a directory with two documents that
both parse, where the embedding batch fails: `ingest` returns failure
and upserts nothing — the failure aborts the WHOLE run, including the
first document, because the code embeds one run-wide batch rather than
per-document batches. -/
theorem embedding_failure_counterexample :
    ingest joinSegmenter (fun s => s) (fun _ => Except.error "boom")
        (PathSource.dir [⟨"a.py", Except.ok [⟨"x"⟩]⟩, ⟨"b.py", Except.ok [⟨"y"⟩]⟩]) []
      = ([], false) := by
  decide

/-- C8 amended: per-document parse failures are isolated — a file whose
parse raises is skipped and the remaining documents load exactly as if
it were absent — but embedding is a single run-wide batch: when the
embedding call for the collected chunks fails, `ingest` aborts the
entire run, reports failure, and upserts nothing (not even the
documents that were processable). -/
theorem failure_isolation :
    (∀ (files1 files2 : List FileEntry) (bad : FileEntry) (e : String),
      bad.parsed = Except.error e →
      load_from_path (.dir (files1 ++ bad :: files2))
        = load_from_path (.dir (files1 ++ files2))) ∧
    (∀ (cb : List TextElement → List String) (md5 : String → String)
        (embed : List String → Except String (List (List ℚ)))
        (source : PathSource) (store : List Point) (err : String),
      load_from_path source ≠ [] →
      (assembleBatch cb (load_from_path source)).map Prod.fst ≠ [] →
      embed ((assembleBatch cb (load_from_path source)).map Prod.fst)
        = Except.error err →
      ingest cb md5 embed source store = (store, false)) := by
  constructor
  · intro files1 files2 bad e hbad
    simp only [load_from_path, List.filterMap_append, List.filterMap_cons, hbad]
  · intro cb md5 embed source store err hdocs hchunks hemb
    have h1 : (load_from_path source).isEmpty = false :=
      List.isEmpty_eq_false.2 hdocs
    have h2 : ((assembleBatch cb (load_from_path source)).map Prod.fst).isEmpty = false :=
      List.isEmpty_eq_false.2 hchunks
    simp [ingest, h1, h2, hemb]

theorem failure_isolation_witness :
    load_from_path (.dir ([⟨"a.py", Except.ok [⟨"x"⟩]⟩]
          ++ ⟨"bad.md", Except.error "parse"⟩ :: [⟨"c.py", Except.ok [⟨"y"⟩]⟩]))
      = load_from_path (.dir ([⟨"a.py", Except.ok [⟨"x"⟩]⟩]
          ++ [⟨"c.py", Except.ok [⟨"y"⟩]⟩])) ∧
    ingest joinSegmenter (fun s => s) (fun _ => Except.error "boom")
        (PathSource.dir [⟨"a.py", Except.ok [⟨"x"⟩]⟩]) [] = ([], false) :=
  ⟨failure_isolation.1 [⟨"a.py", Except.ok [⟨"x"⟩]⟩] [⟨"c.py", Except.ok [⟨"y"⟩]⟩]
      ⟨"bad.md", Except.error "parse"⟩ "parse" rfl,
   failure_isolation.2 joinSegmenter (fun s => s) (fun _ => Except.error "boom")
      (PathSource.dir [⟨"a.py", Except.ok [⟨"x"⟩]⟩]) [] "boom"
      (by decide) (by decide) rfl⟩

/-- C9 counterexample: a file named `README.MD` produces metadata with
`source_type = ".MD"` — the extension is recorded in its original case,
not lowercased to ".md" as the claim requires. -/
theorem source_type_counterexample :
    (assembleBatch joinSegmenter
        [{ file_path := "README.MD", elements := [⟨"t"⟩] }]).map
        (fun cm => cm.2.source_type) = [".MD"] ∧
    (".MD" : String) ≠ ".md" := by
  constructor
  · decide
  · decide

/-- C9 amended: the sourceType recorded in every chunk's metadata equals
`os.path.splitext(file_path)[1]` verbatim — the extension with its
leading dot but in its ORIGINAL letter case (so `README.MD` yields
".MD", while `a/b.py` yields ".py" and a dotfile like `.bashrc` yields
the empty string). -/
theorem source_type_verbatim (cb : List TextElement → List String)
    (docs : List Document) :
    (∀ cm ∈ assembleBatch cb docs,
      cm.2.source_type = (splitext cm.2.file_path).2) ∧
    splitext "README.MD" = ("README", ".MD") ∧
    splitext "a/b.py" = ("a/b", ".py") ∧
    splitext ".bashrc" = (".bashrc", "") := by
  refine ⟨?_, by decide, by decide, by decide⟩
  intro cm hcm
  rw [assembleBatch] at hcm
  obtain ⟨l, hl, hcml⟩ := List.mem_flatten.1 hcm
  obtain ⟨doc, _, rfl⟩ := List.mem_map.1 hl
  rw [docChunkMeta] at hcml
  obtain ⟨ic, _, rfl⟩ := List.mem_map.1 hcml
  rfl

theorem source_type_verbatim_witness :
    (("t", (⟨"README.MD", 0, ".MD", [], ""⟩ : Metadata)) : String × Metadata).2.source_type
      = (splitext "README.MD").2 :=
  (source_type_verbatim joinSegmenter
      [{ file_path := "README.MD", elements := [⟨"t"⟩] }]).1
    ("t", ⟨"README.MD", 0, ".MD", [], ""⟩) (by decide)

/-- C10: an input path from which no documents can be loaded — an
invalid (nonexistent) path, an empty directory, a directory where every
file fails to parse, or a single file that fails to parse — makes
`load_from_path` return the empty list without raising, and `ingest`
then returns success (`true`) with the store untouched. -/
theorem empty_ingest_succeeds (cb : List TextElement → List String)
    (md5 : String → String)
    (embed : List String → Except String (List (List ℚ)))
    (store : List Point) :
    (∀ source, load_from_path source = [] →
      ingest cb md5 embed source store = (store, true)) ∧
    load_from_path .invalid = [] ∧
    load_from_path (.dir []) = [] ∧
    (∀ files, (∀ f ∈ files, ∃ e, f.parsed = Except.error e) →
      load_from_path (.dir files) = []) ∧
    (∀ f e, f.parsed = Except.error e → load_from_path (.file f) = []) := by
  refine ⟨?_, rfl, rfl, ?_, ?_⟩
  · intro source h
    simp [ingest, h]
  · intro files hall
    simp only [load_from_path]
    rw [List.filterMap_eq_nil_iff]
    intro f hf
    obtain ⟨e, he⟩ := hall f hf
    rw [he]
  · intro f e he
    simp [load_from_path, he]

theorem empty_ingest_succeeds_witness :
    ingest joinSegmenter (fun s => s) (fun _ => Except.ok [])
        PathSource.invalid [] = ([], true) ∧
    load_from_path (.dir [⟨"x.md", Except.error "parse"⟩]) = [] ∧
    load_from_path (.file ⟨"x.md", Except.error "parse"⟩) = [] :=
  ⟨(empty_ingest_succeeds joinSegmenter (fun s => s) (fun _ => Except.ok []) []).1
      PathSource.invalid rfl,
   (empty_ingest_succeeds joinSegmenter (fun s => s) (fun _ => Except.ok []) []).2.2.2.1
      [⟨"x.md", Except.error "parse"⟩] (by intro f hf; exact ⟨"parse", by
        rcases List.mem_singleton.1 hf with rfl; rfl⟩),
   (empty_ingest_succeeds joinSegmenter (fun s => s) (fun _ => Except.ok []) []).2.2.2.2
      ⟨"x.md", Except.error "parse"⟩ "parse" rfl⟩

